import Mathlib

/-!
Verification of the hotsauce streaming regex scan engine.

The source (src/src/lib.rs) drives an opaque deterministic automaton oracle
(start_state, next_state, is_match_state, is_dead_state) over a single-pass
byte iterator and lazily yields non-overlapping match ranges.  The shallow
embedding below translates the scan engine (Matches::match_remaining and
Matches::next) into pure Lean functions; the iterator's mutable fields
(haystack, next_index, needs_advance) become an explicit state record that
every call threads through.  Bytes and automaton state identifiers are
modelled as Nat.
-/

/-- The automaton oracle consumed by the scan engine.  In the source this is
the external DenseDFA (type alias Automata in lib.rs); the engine only ever
uses these four capabilities. -/
structure Automaton where
  start : Nat
  step : Nat → Nat → Nat
  isMatch : Nat → Bool
  isDead : Nat → Bool

/-- The mutable state of a Matches iterator (struct Matches in lib.rs):
the not-yet-consumed part of the byte source, the position counter
next_index, and the needs_advance flag. -/
structure MState where
  haystack : List Nat
  nextIndex : Nat
  needsAdvance : Bool
  deriving DecidableEq

/-- Matches::match_remaining from lib.rs: starting from a matching state,
peek bytes and keep consuming while the stepped state stays a match state;
on the first non-match state return the range without consuming the peeked
byte.  Returns the emitted range together with the remaining haystack and
the updated position counter. -/
def matchRemaining (dfa : Automaton) : Nat → Nat → List Nat → Nat → (Nat × Nat) × List Nat × Nat
  | _, strt, [], idx => ((strt, idx), [], idx)
  | state, strt, b :: rest, idx =>
    if dfa.isMatch (dfa.step state b) then
      matchRemaining dfa (dfa.step state b) strt rest (idx + 1)
    else
      ((strt, idx), b :: rest, idx)

/-- The inner for-loop of Matches::next over the candidate list: step every
candidate in insertion (ascending-start) order with byte b and return the
first one whose stepped state is a match state; if none matches, return the
fully stepped list. -/
def stepAll (dfa : Automaton) (b : Nat) : List (Nat × Nat) → List (Nat × Nat) ⊕ (Nat × Nat)
  | [] => Sum.inl []
  | (s0, st) :: rest =>
    if dfa.isMatch (dfa.step st b) then
      Sum.inr (s0, dfa.step st b)
    else
      match stepAll dfa b rest with
      | Sum.inl l => Sum.inl ((s0, dfa.step st b) :: l)
      | Sum.inr r => Sum.inr r

/-- The while-let sweep loop of Matches::next: pull one byte, admit a fresh
candidate at the current position in the start state (appended at the end of
the list), step all candidates, hand the first match over to
match_remaining, otherwise drop dead candidates and continue.  Returns the
optional emitted range with the remaining haystack and position counter. -/
def sweep (dfa : Automaton) : List Nat → Nat → List (Nat × Nat) → Option (Nat × Nat) × List Nat × Nat
  | [], idx, _ => (none, [], idx)
  | b :: rest, idx, cands =>
    match stepAll dfa b (cands ++ [(idx, dfa.start)]) with
    | Sum.inr (s0, st) =>
      ((matchRemaining dfa st s0 rest (idx + 1)).1,
       (matchRemaining dfa st s0 rest (idx + 1)).2)
    | Sum.inl stepped =>
      sweep dfa rest (idx + 1) (stepped.filter fun c => !dfa.isDead c.2)

/-- The body of Matches::next after the needs_advance prologue: dead start
state returns nothing; a matching start state is extended immediately by
match_remaining (setting needs_advance on a zero-width result); otherwise
the sweep loop runs. -/
def nextMCore (dfa : Automaton) (m : MState) : Option (Nat × Nat) × MState :=
  if dfa.isDead dfa.start then
    (none, m)
  else if dfa.isMatch dfa.start then
    (some (matchRemaining dfa dfa.start m.nextIndex m.haystack m.nextIndex).1,
     { haystack := (matchRemaining dfa dfa.start m.nextIndex m.haystack m.nextIndex).2.1,
       nextIndex := (matchRemaining dfa dfa.start m.nextIndex m.haystack m.nextIndex).2.2,
       needsAdvance :=
         if (matchRemaining dfa dfa.start m.nextIndex m.haystack m.nextIndex).1.1
             = (matchRemaining dfa dfa.start m.nextIndex m.haystack m.nextIndex).1.2
         then true else m.needsAdvance })
  else
    ((sweep dfa m.haystack m.nextIndex []).1,
     { haystack := (sweep dfa m.haystack m.nextIndex []).2.1,
       nextIndex := (sweep dfa m.haystack m.nextIndex []).2.2,
       needsAdvance := m.needsAdvance })

/-- Matches::next from lib.rs: if needs_advance is set, consume exactly one
byte first (returning nothing if the source is drained, flag left set), then
run the core body. -/
def nextM (dfa : Automaton) (m : MState) : Option (Nat × Nat) × MState :=
  if m.needsAdvance then
    match m.haystack with
    | [] => (none, m)
    | _ :: rest =>
      nextMCore dfa { haystack := rest, nextIndex := m.nextIndex + 1, needsAdvance := false }
  else
    nextMCore dfa m

/-- Repeatedly call next and collect the emitted ranges, with explicit fuel.
The fuel is only a formal termination device: collectFuel_stable below shows
any fuel of at least phi m (and haystack.length + 1 suffices from a fresh
state) yields the full emission sequence of the Rust iterator. -/
def collectFuel (dfa : Automaton) : Nat → MState → List (Nat × Nat)
  | 0, _ => []
  | fuel + 1, m =>
    match nextM dfa m with
    | (none, _) => []
    | (some r, m') => r :: collectFuel dfa fuel m'

/-- All matches of a scan started on a fresh iterator, as collected by
Regex::matches(haystack).collect() in the tests. -/
def matchesList (dfa : Automaton) (hay : List Nat) : List (Nat × Nat) :=
  collectFuel dfa (hay.length + 1) { haystack := hay, nextIndex := 0, needsAdvance := false }

/-- Length of the unbroken run of match states obtained by stepping from a
given state through the haystack; this is the number of bytes
match_remaining consumes.  Specification function used to characterise
match_remaining. -/
def greedyLen (dfa : Automaton) : Nat → List Nat → Nat
  | _, [] => 0
  | st, b :: rest =>
    if dfa.isMatch (dfa.step st b) then greedyLen dfa (dfa.step st b) rest + 1 else 0

/-- Run the automaton from a state over a list of bytes. -/
def runFrom (dfa : Automaton) (st : Nat) (bs : List Nat) : Nat :=
  bs.foldl dfa.step st

/-- The iterator's termination potential: remaining bytes plus one unless a
forced advance is pending.  Every successful call to next strictly
decreases it. -/
def phi (m : MState) : Nat :=
  m.haystack.length + (if m.needsAdvance then 0 else 1)

/-- True when the next call on this iterator state either returns nothing or
emits a range starting strictly after position k. -/
def nextStartsAfter (dfa : Automaton) (m : MState) (k : Nat) : Bool :=
  match (nextM dfa m).1 with
  | none => true
  | some r => decide (k < r.1)

/-- Modelled from the spec: the pattern-to-automaton compiler is the external
collaborator (spec section 1, out of scope; regex-automata's anchored dense
DFA), not code under src/.  For a literal pattern it produces the anchored
DFA whose state k means "the first k pattern bytes have been matched";
state pat.length is the unique match state and pat.length + 1 the dead
state, every mismatch or step past the full match drains to dead. -/
def literalDfa (pat : List Nat) : Automaton where
  start := 0
  step := fun s b =>
    if h : s < pat.length then
      if pat.get ⟨s, h⟩ == b then s + 1 else pat.length + 1
    else pat.length + 1
  isMatch := fun s => s == pat.length
  isDead := fun s => s == pat.length + 1

/-- A concrete automaton whose start state is dead, as produced for an
unsatisfiable pattern (spec section 8). -/
def deadStartDfa : Automaton where
  start := 0
  step := fun s _ => s
  isMatch := fun _ => false
  isDead := fun _ => true

/-- A concrete automaton with non-contiguous match states along a run, the
shape the anchored pattern a|aaa compiles to (spec section 9 names exactly
this situation): on byte 97 the states 0 → 1 → 2 → 3 are traversed, states 1
and 3 match, state 4 is dead. -/
def flickerDfa : Automaton where
  start := 0
  step := fun s b =>
    if b == 97 then
      if s == 0 then 1 else if s == 1 then 2 else if s == 2 then 3 else 4
    else 4
  isMatch := fun s => s == 1 || s == 3
  isDead := fun s => s == 4

/-- A copy of the automaton of the literal pattern consisting of byte 97
whose oracle answers differently on the unreachable state 3: used to witness
that a scan consults the oracle only on states reachable from the start
state. -/
def tweakDfa : Automaton where
  start := 0
  step := fun s b => if s = 3 then 42 else (literalDfa [97]).step s b
  isMatch := fun s => if s = 3 then true else (literalDfa [97]).isMatch s
  isDead := fun s => if s = 3 then true else (literalDfa [97]).isDead s

/-- The greedy extension never consumes more bytes than remain. -/
theorem greedyLen_le (dfa : Automaton) :
    ∀ (hay : List Nat) (st : Nat), greedyLen dfa st hay ≤ hay.length := by
  intro hay
  induction hay with
  | nil => intro st; simp [greedyLen]
  | cons b rest ih =>
    intro st
    simp only [greedyLen, List.length_cons]
    by_cases h : dfa.isMatch (dfa.step st b) = true
    · rw [if_pos h]
      have := ih (dfa.step st b)
      omega
    · rw [if_neg h]
      omega

/-- Characterisation of match_remaining: it consumes exactly the unbroken
run of match states (greedyLen many bytes) and the returned range ends at
the position counter advanced by that run. -/
theorem matchRemaining_eq (dfa : Automaton) :
    ∀ (hay : List Nat) (st strt idx : Nat),
      matchRemaining dfa st strt hay idx =
        ((strt, idx + greedyLen dfa st hay),
          hay.drop (greedyLen dfa st hay), idx + greedyLen dfa st hay) := by
  intro hay
  induction hay with
  | nil => intro st strt idx; simp [matchRemaining, greedyLen]
  | cons b rest ih =>
    intro st strt idx
    simp only [matchRemaining, greedyLen]
    by_cases h : dfa.isMatch (dfa.step st b) = true
    · rw [if_pos h, if_pos h, ih]
      have harith : idx + 1 + greedyLen dfa (dfa.step st b) rest
          = idx + (greedyLen dfa (dfa.step st b) rest + 1) := by omega
      rw [harith, List.drop_succ_cons]
    · rw [if_neg h, if_neg h]
      simp

/-- When the candidate-stepping loop finds no match, it returns every
candidate with its state stepped by the byte. -/
theorem stepAll_inl_eq (dfa : Automaton) (b : Nat) :
    ∀ (l l' : List (Nat × Nat)), stepAll dfa b l = Sum.inl l' →
      l' = l.map fun c => (c.1, dfa.step c.2 b) := by
  intro l
  induction l with
  | nil =>
    intro l' h
    simp only [stepAll, Sum.inl.injEq] at h
    simp [← h]
  | cons c rest ih =>
    intro l' h
    obtain ⟨s0, st⟩ := c
    simp only [stepAll] at h
    by_cases hm : dfa.isMatch (dfa.step st b) = true
    · rw [if_pos hm] at h
      exact absurd h (by simp)
    · rw [if_neg hm] at h
      cases hrec : stepAll dfa b rest with
      | inl l0 =>
        rw [hrec] at h
        simp only [Sum.inl.injEq] at h
        subst h
        rw [ih l0 hrec]
        simp
      | inr r =>
        rw [hrec] at h
        exact absurd h (by simp)

/-- When the candidate-stepping loop returns a match, the winner is one of
the candidates, its state is the step of that candidate's state, and the
stepped state is a match state. -/
theorem stepAll_inr_mem (dfa : Automaton) (b : Nat) :
    ∀ (l : List (Nat × Nat)) (s0 st : Nat), stepAll dfa b l = Sum.inr (s0, st) →
      ∃ st0, (s0, st0) ∈ l ∧ st = dfa.step st0 b ∧ dfa.isMatch st = true := by
  intro l
  induction l with
  | nil => intro s0 st h; simp [stepAll] at h
  | cons c rest ih =>
    intro s0 st h
    obtain ⟨s1, st1⟩ := c
    simp only [stepAll] at h
    by_cases hm : dfa.isMatch (dfa.step st1 b) = true
    · rw [if_pos hm] at h
      simp only [Sum.inr.injEq, Prod.mk.injEq] at h
      obtain ⟨h1, h2⟩ := h
      subst h1
      refine ⟨st1, List.mem_cons_self _ _, h2.symm, ?_⟩
      rw [h2] at hm
      exact hm
    · rw [if_neg hm] at h
      cases hrec : stepAll dfa b rest with
      | inl l0 =>
        rw [hrec] at h
        exact absurd h (by simp)
      | inr r =>
        rw [hrec] at h
        simp only [Sum.inr.injEq] at h
        subst h
        obtain ⟨st0, hmem, hst, hma⟩ := ih s0 st hrec
        exact ⟨st0, List.mem_cons_of_mem _ hmem, hst, hma⟩

/-- Bookkeeping facts about a successful sweep: the emitted start is at
least the smallest admissible position and below the final counter, the
counter after the sweep is the emitted end, and position counter plus
remaining bytes is invariant. -/
theorem sweep_some (dfa : Automaton) :
    ∀ (hay : List Nat) (idx : Nat) (cands : List (Nat × Nat)) (lo s e : Nat)
      (hay' : List Nat) (idx' : Nat),
      sweep dfa hay idx cands = (some (s, e), hay', idx') →
      (∀ c ∈ cands, lo ≤ c.1 ∧ c.1 < idx) → lo ≤ idx →
      lo ≤ s ∧ s < e ∧ idx' = e ∧ idx' + hay'.length = idx + hay.length := by
  intro hay
  induction hay with
  | nil =>
    intro idx cands lo s e hay' idx' h _ _
    simp [sweep] at h
  | cons b rest ih =>
    intro idx cands lo s e hay' idx' h hc hlo
    simp only [sweep] at h
    cases hstep : stepAll dfa b (cands ++ [(idx, dfa.start)]) with
    | inr p =>
      obtain ⟨s0, st⟩ := p
      rw [hstep] at h
      dsimp only at h
      rw [matchRemaining_eq] at h
      simp only [Prod.mk.injEq, Option.some.injEq] at h
      obtain ⟨⟨hs, he⟩, hhay, hidx⟩ := h
      obtain ⟨st0, hmem, _, _⟩ := stepAll_inr_mem dfa b _ s0 st hstep
      have hg := greedyLen_le dfa rest st
      have hs0 : lo ≤ s0 ∧ s0 ≤ idx := by
        rcases List.mem_append.mp hmem with hin | hin
        · have := hc _ hin
          exact ⟨this.1, by have := this.2; omega⟩
        · simp only [List.mem_singleton, Prod.mk.injEq] at hin
          exact ⟨by rw [hin.1]; exact hlo, by rw [hin.1]⟩
      subst hs he hidx
      refine ⟨hs0.1, by omega, rfl, ?_⟩
      rw [← hhay]
      simp only [List.length_drop, List.length_cons]
      omega
    | inl stepped =>
      rw [hstep] at h
      dsimp only at h
      have hstepeq := stepAll_inl_eq dfa b _ stepped hstep
      have hnext : ∀ c ∈ stepped.filter (fun c => !dfa.isDead c.2),
          lo ≤ c.1 ∧ c.1 < idx + 1 := by
        intro c hcmem
        have hcin : c ∈ stepped := List.mem_of_mem_filter hcmem
        rw [hstepeq] at hcin
        obtain ⟨c0, hc0, hceq⟩ := List.mem_map.mp hcin
        rcases List.mem_append.mp hc0 with hin | hin
        · have := hc _ hin
          rw [← hceq]
          exact ⟨this.1, by have := this.2; omega⟩
        · simp only [List.mem_singleton] at hin
          rw [← hceq, hin]
          exact ⟨hlo, by omega⟩
      obtain ⟨a1, a2, a3, a4⟩ := ih (idx + 1) _ lo s e hay' idx' h hnext (by omega)
      refine ⟨a1, a2, a3, ?_⟩
      simp only [List.length_cons]
      omega

/-- Bookkeeping facts about a successful core call of next: the emitted
start is at least the current position, the counter afterwards equals the
emitted end, position counter plus remaining bytes is invariant, a
zero-width emission sets needs_advance without moving the counter, and a
proper emission leaves the flag unchanged. -/
theorem nextMCore_some (dfa : Automaton) (m : MState) (s e : Nat) (m' : MState)
    (h : nextMCore dfa m = (some (s, e), m')) :
    m.nextIndex ≤ s ∧ s ≤ e ∧ m'.nextIndex = e ∧
      m'.nextIndex + m'.haystack.length = m.nextIndex + m.haystack.length ∧
      (s = e → m'.needsAdvance = true ∧ m'.nextIndex = m.nextIndex) ∧
      (s < e → m'.needsAdvance = m.needsAdvance) := by
  by_cases hd : dfa.isDead dfa.start = true
  · rw [nextMCore, if_pos hd] at h
    exact absurd h (by simp)
  by_cases hm : dfa.isMatch dfa.start = true
  · rw [nextMCore, if_neg hd, if_pos hm] at h
    rw [matchRemaining_eq] at h
    have hg := greedyLen_le dfa m.haystack dfa.start
    simp only [Prod.mk.injEq, Option.some.injEq] at h
    obtain ⟨⟨h1, h2⟩, h3⟩ := h
    subst h1 h2
    have hidx : m'.nextIndex = m.nextIndex + greedyLen dfa dfa.start m.haystack := by
      rw [← h3]
    have hhay : m'.haystack = m.haystack.drop (greedyLen dfa dfa.start m.haystack) := by
      rw [← h3]
    have hfl : m'.needsAdvance =
        if m.nextIndex = m.nextIndex + greedyLen dfa dfa.start m.haystack then true
        else m.needsAdvance := by
      rw [← h3]
    refine ⟨le_refl _, by omega, hidx, ?_, ?_, ?_⟩
    · rw [hidx, hhay]
      simp only [List.length_drop]
      omega
    · intro hse
      have hg0 : greedyLen dfa dfa.start m.haystack = 0 := by omega
      rw [hfl, hidx, hg0]
      simp
    · intro hse
      have hne : ¬ m.nextIndex = m.nextIndex + greedyLen dfa dfa.start m.haystack := by omega
      rw [hfl, if_neg hne]
  · rw [nextMCore, if_neg hd, if_neg hm] at h
    cases hs : sweep dfa m.haystack m.nextIndex [] with
    | mk r rest2 =>
      obtain ⟨hay2, idx2⟩ := rest2
      rw [hs] at h
      simp only [Prod.mk.injEq] at h
      obtain ⟨h1, h2⟩ := h
      subst h1
      obtain ⟨a1, a2, a3, a4⟩ :=
        sweep_some dfa m.haystack m.nextIndex [] m.nextIndex s e hay2 idx2 hs
          (by intro c hc; simp at hc) (le_refl _)
      rw [← h2]
      exact ⟨a1, by omega, a3, by simp only []; omega, by omega, fun _ => rfl⟩

/-- The same bookkeeping for a full call of next, starting from an
arbitrary iterator state. -/
theorem nextM_some (dfa : Automaton) (m : MState) (s e : Nat) (m' : MState)
    (h : nextM dfa m = (some (s, e), m')) :
    m.nextIndex ≤ s ∧ s ≤ e ∧ m'.nextIndex = e ∧
      m'.nextIndex + m'.haystack.length = m.nextIndex + m.haystack.length ∧
      (s = e → m'.needsAdvance = true) ∧
      (s < e → m'.needsAdvance = false) := by
  rw [nextM] at h
  by_cases hf : m.needsAdvance = true
  · rw [if_pos hf] at h
    cases hh : m.haystack with
    | nil =>
      rw [hh] at h
      exact absurd h (by simp)
    | cons b rest =>
      rw [hh] at h
      obtain ⟨a1, a2, a3, a4, a5, a6⟩ := nextMCore_some dfa _ s e m' h
      simp only at a1 a3 a4 a6
      refine ⟨by omega, a2, a3, by simp only [List.length_cons]; omega,
        fun hse => (a5 hse).1, a6⟩
  · rw [if_neg hf] at h
    have hf' : m.needsAdvance = false := by
      cases hx : m.needsAdvance
      · rfl
      · exact absurd hx hf
    obtain ⟨a1, a2, a3, a4, a5, a6⟩ := nextMCore_some dfa m s e m' h
    exact ⟨a1, a2, a3, a4, fun hse => (a5 hse).1, fun hlt => by rw [a6 hlt, hf']⟩

/-- When a forced advance is pending, any range emitted by the next call
starts strictly after the current position. -/
theorem nextM_some_advancing (dfa : Automaton) (m : MState) (s e : Nat) (m' : MState)
    (h : nextM dfa m = (some (s, e), m')) (hf : m.needsAdvance = true) :
    m.nextIndex < s := by
  rw [nextM, if_pos hf] at h
  cases hh : m.haystack with
  | nil =>
    rw [hh] at h
    exact absurd h (by simp)
  | cons b rest =>
    rw [hh] at h
    obtain ⟨a1, _⟩ := nextMCore_some dfa _ s e m' h
    simp only at a1
    omega

/-- Every successful call of next strictly decreases the termination
potential phi. -/
theorem nextM_phi (dfa : Automaton) (m : MState) (r : Nat × Nat) (m' : MState)
    (h : nextM dfa m = (some r, m')) : phi m' < phi m := by
  obtain ⟨s, e⟩ := r
  obtain ⟨a1, a2, a3, a4, a5, a6⟩ := nextM_some dfa m s e m' h
  by_cases hf : m.needsAdvance = true
  · have hadv := nextM_some_advancing dfa m s e m' h hf
    rcases Nat.lt_or_ge s e with hlt | hge
    · have hfl := a6 hlt
      simp [phi, hfl, hf]
      omega
    · have hse : s = e := by omega
      have hfl := a5 hse
      simp [phi, hfl, hf]
      omega
  · have hf' : m.needsAdvance = false := by
      cases hx : m.needsAdvance
      · rfl
      · exact absurd hx hf
    rcases Nat.lt_or_ge s e with hlt | hge
    · have hfl := a6 hlt
      simp [phi, hfl, hf']
      omega
    · have hse : s = e := by omega
      have hfl := a5 hse
      simp [phi, hfl, hf']
      omega

/-- A state with exhausted potential returns nothing and stays unchanged. -/
theorem nextM_phi_zero (dfa : Automaton) (m : MState) (h : phi m = 0) :
    nextM dfa m = (none, m) := by
  have hf : m.needsAdvance = true := by
    cases hx : m.needsAdvance
    · simp [phi, hx] at h
    · rfl
  have hh : m.haystack = [] := by
    simp [phi, hf] at h
    exact h
  rw [nextM, if_pos hf, hh]

/-- With exhausted potential no fuel produces any match. -/
theorem collectFuel_phi_zero (dfa : Automaton) (m : MState) (h : phi m = 0) :
    ∀ fuel, collectFuel dfa fuel m = [] := by
  intro fuel
  cases fuel with
  | zero => rfl
  | succ n =>
    simp only [collectFuel, nextM_phi_zero dfa m h]

/-- Fuel stability: any two fuel budgets at least phi m collect the same
sequence, so the fuel in matchesList is an artefact, not a truncation. -/
theorem collectFuel_stable (dfa : Automaton) :
    ∀ (n : Nat) (m : MState) (f1 f2 : Nat), phi m ≤ n → phi m ≤ f1 → phi m ≤ f2 →
      collectFuel dfa f1 m = collectFuel dfa f2 m := by
  intro n
  induction n with
  | zero =>
    intro m f1 f2 h0 h1 h2
    have hz : phi m = 0 := by omega
    rw [collectFuel_phi_zero dfa m hz, collectFuel_phi_zero dfa m hz]
  | succ n ih =>
    intro m f1 f2 h0 h1 h2
    by_cases hz : phi m = 0
    · rw [collectFuel_phi_zero dfa m hz, collectFuel_phi_zero dfa m hz]
    · cases f1 with
      | zero => omega
      | succ a =>
        cases f2 with
        | zero => omega
        | succ b =>
          simp only [collectFuel]
          cases hn : nextM dfa m with
          | mk r m' =>
            cases r with
            | none => rfl
            | some rr =>
              dsimp only
              have hphi := nextM_phi dfa m rr m' hn
              rw [ih m' a b (by omega) (by omega) (by omega)]

/-- Any fuel budget of at least haystack.length + 1 collects exactly
matchesList: the embedded iterator is never cut short by fuel. -/
theorem matchesList_fuel (dfa : Automaton) (hay : List Nat) (fuel : Nat)
    (h : hay.length + 1 ≤ fuel) :
    collectFuel dfa fuel { haystack := hay, nextIndex := 0, needsAdvance := false }
      = matchesList dfa hay := by
  have hphi : phi { haystack := hay, nextIndex := 0, needsAdvance := false } = hay.length + 1 := by
    simp [phi]
  rw [matchesList]
  exact collectFuel_stable dfa fuel _ fuel (hay.length + 1) (by omega) (by omega) (by omega)

/-- Invariant of the collected emission sequence: every range starts at or
after the position where collection began, is well formed, stays within the
total extent of the input, and consecutive ranges do not overlap. -/
theorem collectFuel_inv (dfa : Automaton) :
    ∀ (fuel : Nat) (m : MState),
      (∀ r ∈ collectFuel dfa fuel m,
        m.nextIndex ≤ r.1 ∧ r.1 ≤ r.2 ∧ r.2 ≤ m.nextIndex + m.haystack.length) ∧
      List.Chain' (fun a b : Nat × Nat => a.2 ≤ b.1) (collectFuel dfa fuel m) := by
  intro fuel
  induction fuel with
  | zero =>
    intro m
    constructor
    · intro r hr
      simp [collectFuel] at hr
    · rw [show collectFuel dfa 0 m = [] from rfl]
      exact List.chain'_nil
  | succ fuel ih =>
    intro m
    cases hn : nextM dfa m with
    | mk r0 m' =>
      cases r0 with
      | none =>
        have hlist : collectFuel dfa (fuel + 1) m = [] := by
          simp [collectFuel, hn]
        rw [hlist]
        constructor
        · intro r hr
          simp at hr
        · exact List.chain'_nil
      | some rr =>
        obtain ⟨s, e⟩ := rr
        obtain ⟨a1, a2, a3, a4, a5, a6⟩ := nextM_some dfa m s e m' hn
        obtain ⟨ihAll, ihChain⟩ := ih m'
        have hlist : collectFuel dfa (fuel + 1) m = (s, e) :: collectFuel dfa fuel m' := by
          simp [collectFuel, hn]
        rw [hlist]
        constructor
        · intro r hr
          rcases List.mem_cons.mp hr with heq | hmem
          · subst heq
            exact ⟨a1, a2, by omega⟩
          · have hrm := ihAll r hmem
            exact ⟨by omega, hrm.2.1, by omega⟩
        · rw [List.chain'_cons']
          refine ⟨?_, ihChain⟩
          intro y hy
          have hmem := List.mem_of_mem_head? hy
          have hym := ihAll y hmem
          simp only
          omega

/-- C2: for every automaton and every haystack, the sequence of ranges
emitted by the Matches iterator is ordered and non-overlapping (the end of
each emission is at most the start of the next) and every emitted range
start..end satisfies start <= end <= haystack length (0 <= start holds
trivially over Nat). -/
theorem emitted_ranges_ordered_and_bounded (dfa : Automaton) (H : List Nat) :
    List.Chain' (fun a b : Nat × Nat => a.2 ≤ b.1) (matchesList dfa H) ∧
      ((matchesList dfa H).all fun r =>
        decide (r.1 ≤ r.2) && decide (r.2 ≤ H.length)) = true := by
  obtain ⟨hAll, hChain⟩ :=
    collectFuel_inv dfa (H.length + 1) { haystack := H, nextIndex := 0, needsAdvance := false }
  rw [matchesList]
  refine ⟨hChain, ?_⟩
  rw [List.all_eq_true]
  intro r hr
  have hrr := hAll r hr
  have h3 : r.2 ≤ 0 + H.length := hrr.2.2
  simp only [Bool.and_eq_true, decide_eq_true_eq]
  exact ⟨hrr.2.1, by omega⟩

/-- C3: scanning the haystack abc (bytes 97 98 99) with the automaton of the
empty pattern yields exactly one zero-width match per position including
end-of-input, with strictly increasing starts. -/
theorem empty_pattern_density :
    matchesList (literalDfa []) [97, 98, 99] = [(0, 0), (1, 1), (2, 2), (3, 3)] := by
  decide

/-- C6: scanning aaa with the automaton of the literal pattern aa yields
only 0..2; the second sweep starts at position 2 where the lone remaining a
cannot complete the pattern, so no overlapping match is emitted. -/
theorem overlap_precedence_aa :
    matchesList (literalDfa [97, 97]) [97, 97, 97] = [(0, 2)] := by
  decide

/-- C10: emitted ranges may be exactly adjacent.  After the first match of
hey in heyhey the byte at position 3 was only peeked, not consumed (the
iterator state still holds it and the counter stands at 3), so the next
sweep admits a candidate at exactly the end of the previous match and the
scan yields 0..3 followed by 3..6. -/
theorem back_to_back_adjacent :
    nextM (literalDfa [104, 101, 121])
        { haystack := [104, 101, 121, 104, 101, 121], nextIndex := 0, needsAdvance := false }
      = (some (0, 3), { haystack := [104, 101, 121], nextIndex := 3, needsAdvance := false }) ∧
      matchesList (literalDfa [104, 101, 121]) [104, 101, 121, 104, 101, 121]
        = [(0, 3), (3, 6)] := by
  decide

/-- C1 (amended): once a candidate reaches a match state, match_remaining
extends the tentative range only through the unbroken run of consecutive
match states (greedyLen) and stops at the first non-match state; no best
end is tracked across later re-entries into match states, so the returned
end is the end of the first contiguous match-state run, not the last match
position achievable from that start. -/
theorem match_extension_stops_at_first_nonmatch (dfa : Automaton)
    (hay : List Nat) (st strt idx : Nat) :
    matchRemaining dfa st strt hay idx =
      ((strt, idx + greedyLen dfa st hay),
        hay.drop (greedyLen dfa st hay), idx + greedyLen dfa st hay) :=
  matchRemaining_eq dfa hay st strt idx

/-- C1 counterexample: on an automaton whose match states are revisited
non-contiguously (the shape the pattern a|aaa compiles to) the engine emits
0..1 as the match for start 0, although running the automaton from the
start state over all three bytes of the haystack ends in a match state, so
the longer match 0..3 is achievable from the same start. -/
theorem longest_match_counterexample :
    matchesList flickerDfa [97, 97, 97] = [(0, 1), (1, 2), (2, 3)] ∧
      flickerDfa.isMatch (runFrom flickerDfa flickerDfa.start [97, 97, 97]) = true := by
  decide

/-- C5: if the automaton's start state is dead, a fresh Matches iterator
returns nothing, leaves its state (including the byte source) completely
unchanged - hence every subsequent call does the same - and the collected
match list is empty for every haystack. -/
theorem dead_start_short_circuits (dfa : Automaton) (h : dfa.isDead dfa.start = true)
    (H : List Nat) :
    nextM dfa { haystack := H, nextIndex := 0, needsAdvance := false }
        = (none, { haystack := H, nextIndex := 0, needsAdvance := false }) ∧
      matchesList dfa H = [] := by
  have hcore : nextMCore dfa { haystack := H, nextIndex := 0, needsAdvance := false }
      = (none, { haystack := H, nextIndex := 0, needsAdvance := false }) := by
    rw [nextMCore, if_pos h]
  have hnext : nextM dfa { haystack := H, nextIndex := 0, needsAdvance := false }
      = (none, { haystack := H, nextIndex := 0, needsAdvance := false }) := hcore
  refine ⟨hnext, ?_⟩
  rw [matchesList]
  simp only [collectFuel]
  rw [hnext]

/-- C5 witness: the dead-start automaton on a one-byte haystack. -/
theorem dead_start_short_circuits_witness :
    deadStartDfa.isDead deadStartDfa.start = true ∧
      (nextM deadStartDfa { haystack := [104], nextIndex := 0, needsAdvance := false }
          = (none, { haystack := [104], nextIndex := 0, needsAdvance := false }) ∧
        matchesList deadStartDfa [104] = []) :=
  ⟨rfl, dead_start_short_circuits deadStartDfa rfl [104]⟩

/-- C4: after a zero-width emission the needs_advance flag is set and the
counter stands at the emitted position; the following call either returns
nothing or emits a range starting strictly later (it consumes one byte
before rescanning, so the same zero-width match is never re-emitted at the
same position), and if the source is drained at that point the call returns
nothing and changes nothing. -/
theorem zero_width_forces_advance (dfa : Automaton) (m : MState) (s : Nat) (m' : MState)
    (h : nextM dfa m = (some (s, s), m')) :
    m'.needsAdvance = true ∧ m'.nextIndex = s ∧ nextStartsAfter dfa m' s = true ∧
      nextM dfa { haystack := [], nextIndex := s, needsAdvance := true }
        = (none, { haystack := [], nextIndex := s, needsAdvance := true }) := by
  obtain ⟨a1, a2, a3, a4, a5, a6⟩ := nextM_some dfa m s s m' h
  have hfl := a5 rfl
  refine ⟨hfl, a3, ?_, rfl⟩
  cases hn : nextM dfa m' with
  | mk ro m2 =>
    cases ro with
    | none =>
      rw [nextStartsAfter, hn]
    | some r2 =>
      rw [nextStartsAfter, hn]
      dsimp only
      rw [decide_eq_true_eq]
      have hadv := nextM_some_advancing dfa m' r2.1 r2.2 m2 (by rw [hn]) hfl
      omega

/-- C4 witness: the empty-pattern automaton emits the zero-width match 0..0
on the haystack consisting of byte 97. -/
theorem zero_width_forces_advance_witness :
    ({ haystack := [97], nextIndex := 0, needsAdvance := true } : MState).needsAdvance = true ∧
      ({ haystack := [97], nextIndex := 0, needsAdvance := true } : MState).nextIndex = 0 ∧
      nextStartsAfter (literalDfa [])
        { haystack := [97], nextIndex := 0, needsAdvance := true } 0 = true ∧
      nextM (literalDfa []) { haystack := [], nextIndex := 0, needsAdvance := true }
        = (none, { haystack := [], nextIndex := 0, needsAdvance := true }) :=
  zero_width_forces_advance (literalDfa [])
    { haystack := [97], nextIndex := 0, needsAdvance := false } 0
    { haystack := [97], nextIndex := 0, needsAdvance := true } (by decide)

/-- C8: matching is deterministic; two independent collections over the same
byte sequence with the same automaton, regardless of how generously each
run is fuelled, produce the identical sequence of ranges. -/
theorem rescan_deterministic (dfa : Automaton) (H : List Nat) (f1 f2 : Nat)
    (h1 : H.length + 1 ≤ f1) (h2 : H.length + 1 ≤ f2) :
    collectFuel dfa f1 { haystack := H, nextIndex := 0, needsAdvance := false }
      = collectFuel dfa f2 { haystack := H, nextIndex := 0, needsAdvance := false } := by
  have hphi : phi { haystack := H, nextIndex := 0, needsAdvance := false } = H.length + 1 := by
    simp [phi]
  exact collectFuel_stable dfa f1 _ f1 f2 (by omega) (by omega) (by omega)

/-- C8 witness: two runs over heyhey with different fuel budgets. -/
theorem rescan_deterministic_witness :
    ([104, 101, 121, 104, 101, 121] : List Nat).length + 1 ≤ 7 ∧
      ([104, 101, 121, 104, 101, 121] : List Nat).length + 1 ≤ 20 ∧
      collectFuel (literalDfa [104, 101, 121]) 7
          { haystack := [104, 101, 121, 104, 101, 121], nextIndex := 0, needsAdvance := false }
        = collectFuel (literalDfa [104, 101, 121]) 20
          { haystack := [104, 101, 121, 104, 101, 121], nextIndex := 0, needsAdvance := false } :=
  ⟨by decide, by decide,
    rescan_deterministic (literalDfa [104, 101, 121]) [104, 101, 121, 104, 101, 121] 7 20
      (by decide) (by decide)⟩

/-- C7 (amended): ranges emitted by a backward scan are indices into the
reversed stream; the transform (s, e) to (|H| - e, |H| - s) maps each of
them to a well-formed range of the original haystack, and on the
repository's example (pattern hey, haystack "hey hey") the forward and
backward range sets are exact mirror images under that transform; exact
mirror equality does not hold for every pattern and haystack. -/
theorem reverse_scan_mirror (A : Automaton) (H : List Nat) :
    ((matchesList A H.reverse).all fun r =>
        decide (H.length - r.1 ≤ H.length) && decide (H.length - r.2 ≤ H.length - r.1)) = true ∧
      (((matchesList (literalDfa [121, 101, 104])
            ([104, 101, 121, 32, 104, 101, 121].reverse)).map
          fun r => (7 - r.2, 7 - r.1)).reverse
        = matchesList (literalDfa [104, 101, 121]) [104, 101, 121, 32, 104, 101, 121]) := by
  constructor
  · obtain ⟨hAll, _⟩ := collectFuel_inv A (H.reverse.length + 1)
      { haystack := H.reverse, nextIndex := 0, needsAdvance := false }
    rw [matchesList, List.all_eq_true]
    intro r hr
    have hrr := hAll r hr
    have h2 : r.2 ≤ 0 + H.reverse.length := hrr.2.2
    have h1 : r.1 ≤ r.2 := hrr.2.1
    rw [List.length_reverse] at h2
    simp only [Bool.and_eq_true, decide_eq_true_eq]
    exact ⟨by omega, by omega⟩
  · decide

/-- C7 counterexample: for the pattern aa and the haystack aaa the forward
scan emits 0..2 while the backward scan over the reversed haystack emits
0..2 as well, whose mirror under the transform is (1, 3); the mirror of a
backward emission is not an emission of the forward scan, so the two range
sets are not mirror images of each other. -/
theorem mirror_symmetry_counterexample :
    (0, 2) ∈ matchesList (literalDfa [97, 97]) [97, 97, 97] ∧
      ((3 - 2 : Nat), (3 - 0 : Nat)) ∉ matchesList (literalDfa [97, 97]) ([97, 97, 97].reverse) := by
  decide

/-- match_remaining consults the oracle only at states obtained from its
entry state by stepping: two automata agreeing on a step-closed set
containing the entry state behave identically. -/
theorem matchRemaining_congr (A B : Automaton) (valid : Nat → Prop)
    (hclosed : ∀ s b, valid s → valid (A.step s b))
    (hstep : ∀ s b, valid s → A.step s b = B.step s b)
    (hmatch : ∀ s, valid s → A.isMatch s = B.isMatch s) :
    ∀ (hay : List Nat) (st strt idx : Nat), valid st →
      matchRemaining A st strt hay idx = matchRemaining B st strt hay idx := by
  intro hay
  induction hay with
  | nil => intro st strt idx _; rfl
  | cons b rest ih =>
    intro st strt idx hv
    have hs := hstep st b hv
    have hv' := hclosed st b hv
    simp only [matchRemaining]
    rw [← hs, ← hmatch _ hv']
    by_cases hcase : A.isMatch (A.step st b) = true
    · rw [if_pos hcase, if_pos hcase]
      exact ih (A.step st b) strt (idx + 1) hv'
    · rw [if_neg hcase, if_neg hcase]

/-- The candidate-stepping loop consults the oracle only at the candidates'
states and their steps. -/
theorem stepAll_congr (A B : Automaton) (valid : Nat → Prop)
    (hclosed : ∀ s b, valid s → valid (A.step s b))
    (hstep : ∀ s b, valid s → A.step s b = B.step s b)
    (hmatch : ∀ s, valid s → A.isMatch s = B.isMatch s) (b : Nat) :
    ∀ (l : List (Nat × Nat)), (∀ c ∈ l, valid c.2) →
      stepAll A b l = stepAll B b l := by
  intro l
  induction l with
  | nil => intro _; rfl
  | cons c rest ih =>
    intro hl
    obtain ⟨s0, st⟩ := c
    have hv : valid st := hl (s0, st) (List.mem_cons_self _ _)
    have hs := hstep st b hv
    have hv' := hclosed st b hv
    simp only [stepAll]
    rw [← hs, ← hmatch _ hv']
    by_cases hcase : A.isMatch (A.step st b) = true
    · rw [if_pos hcase, if_pos hcase]
    · rw [if_neg hcase, if_neg hcase]
      rw [ih (fun c hc => hl c (List.mem_cons_of_mem _ hc))]

/-- The sweep loop consults the oracle only at the start state and states
reachable from live candidates. -/
theorem sweep_congr (A B : Automaton) (valid : Nat → Prop)
    (hstart : A.start = B.start) (hv0 : valid A.start)
    (hclosed : ∀ s b, valid s → valid (A.step s b))
    (hstep : ∀ s b, valid s → A.step s b = B.step s b)
    (hmatch : ∀ s, valid s → A.isMatch s = B.isMatch s)
    (hdead : ∀ s, valid s → A.isDead s = B.isDead s) :
    ∀ (hay : List Nat) (idx : Nat) (cands : List (Nat × Nat)),
      (∀ c ∈ cands, valid c.2) →
      sweep A hay idx cands = sweep B hay idx cands := by
  intro hay
  induction hay with
  | nil => intro idx cands _; rfl
  | cons b rest ih =>
    intro idx cands hc
    have hc' : ∀ c ∈ cands ++ [(idx, A.start)], valid c.2 := by
      intro c hmem
      rcases List.mem_append.mp hmem with hin | hin
      · exact hc c hin
      · simp only [List.mem_singleton] at hin
        rw [hin]
        exact hv0
    have hsa : stepAll A b (cands ++ [(idx, A.start)])
        = stepAll B b (cands ++ [(idx, A.start)]) :=
      stepAll_congr A B valid hclosed hstep hmatch b _ hc'
    simp only [sweep, ← hstart]
    rw [← hsa]
    cases hsc : stepAll A b (cands ++ [(idx, A.start)]) with
    | inr p =>
      obtain ⟨s0, st⟩ := p
      dsimp only
      obtain ⟨st0, hmem, hst, _⟩ := stepAll_inr_mem A b _ s0 st hsc
      have hv : valid st := by
        rw [hst]
        exact hclosed st0 b (hc' _ hmem)
      rw [matchRemaining_congr A B valid hclosed hstep hmatch rest st s0 (idx + 1) hv]
    | inl stepped =>
      dsimp only
      have hvalid : ∀ c ∈ stepped, valid c.2 := by
        intro c hmem
        rw [stepAll_inl_eq A b _ stepped hsc] at hmem
        obtain ⟨c0, hc0, hceq⟩ := List.mem_map.mp hmem
        rw [← hceq]
        exact hclosed c0.2 b (hc' c0 hc0)
      have hfilter : stepped.filter (fun c => !A.isDead c.2)
          = stepped.filter (fun c => !B.isDead c.2) := by
        apply List.filter_congr
        intro c hmem
        rw [hdead c.2 (hvalid c hmem)]
      rw [← hfilter]
      exact ih (idx + 1) _ (fun c hmem => hvalid c (List.mem_of_mem_filter hmem))

/-- One full call of next consults the oracle only on the step-closure of
the start state. -/
theorem nextMCore_congr (A B : Automaton) (valid : Nat → Prop)
    (hstart : A.start = B.start) (hv0 : valid A.start)
    (hclosed : ∀ s b, valid s → valid (A.step s b))
    (hstep : ∀ s b, valid s → A.step s b = B.step s b)
    (hmatch : ∀ s, valid s → A.isMatch s = B.isMatch s)
    (hdead : ∀ s, valid s → A.isDead s = B.isDead s)
    (m : MState) : nextMCore A m = nextMCore B m := by
  have hd : A.isDead A.start = B.isDead B.start := by
    rw [← hstart]
    exact hdead _ hv0
  have hm : A.isMatch A.start = B.isMatch B.start := by
    rw [← hstart]
    exact hmatch _ hv0
  rw [nextMCore, nextMCore, ← hd, ← hm, ← hstart]
  by_cases h1 : A.isDead A.start = true
  · rw [if_pos h1, if_pos h1]
  · rw [if_neg h1, if_neg h1]
    by_cases h2 : A.isMatch A.start = true
    · rw [if_pos h2, if_pos h2]
      rw [← matchRemaining_congr A B valid hclosed hstep hmatch
        m.haystack A.start m.nextIndex m.nextIndex hv0]
    · rw [if_neg h2, if_neg h2]
      rw [← sweep_congr A B valid hstart hv0 hclosed hstep hmatch hdead
        m.haystack m.nextIndex [] (fun c hc => absurd hc (List.not_mem_nil c))]

/-- Congruence for nextM. -/
theorem nextM_congr (A B : Automaton) (valid : Nat → Prop)
    (hstart : A.start = B.start) (hv0 : valid A.start)
    (hclosed : ∀ s b, valid s → valid (A.step s b))
    (hstep : ∀ s b, valid s → A.step s b = B.step s b)
    (hmatch : ∀ s, valid s → A.isMatch s = B.isMatch s)
    (hdead : ∀ s, valid s → A.isDead s = B.isDead s)
    (m : MState) : nextM A m = nextM B m := by
  rw [nextM, nextM]
  by_cases hf : m.needsAdvance = true
  · rw [if_pos hf, if_pos hf]
    cases m.haystack with
    | nil => rfl
    | cons b rest =>
      exact nextMCore_congr A B valid hstart hv0 hclosed hstep hmatch hdead _
  · rw [if_neg hf, if_neg hf]
    exact nextMCore_congr A B valid hstart hv0 hclosed hstep hmatch hdead m

/-- Congruence for the collected emission sequence. -/
theorem collectFuel_congr (A B : Automaton) (valid : Nat → Prop)
    (hstart : A.start = B.start) (hv0 : valid A.start)
    (hclosed : ∀ s b, valid s → valid (A.step s b))
    (hstep : ∀ s b, valid s → A.step s b = B.step s b)
    (hmatch : ∀ s, valid s → A.isMatch s = B.isMatch s)
    (hdead : ∀ s, valid s → A.isDead s = B.isDead s) :
    ∀ (fuel : Nat) (m : MState), collectFuel A fuel m = collectFuel B fuel m := by
  intro fuel
  induction fuel with
  | zero => intro m; rfl
  | succ fuel ih =>
    intro m
    simp only [collectFuel]
    rw [← nextM_congr A B valid hstart hv0 hclosed hstep hmatch hdead m]
    cases hn : nextM A m with
    | mk ro m' =>
      cases ro with
      | none => rfl
      | some r =>
        dsimp only
        rw [ih m']

/-- C9: no runtime failure is possible during scanning.  In the embedding
the oracle's step function is total per its contract, so a call of next is
a total function and running out of input returns the normal value none;
the residual obligation of the unchecked transition calls in the source is
that every state the engine ever hands to the oracle is one the oracle
produced, i.e. lies in the step-closure of the start state.  This theorem
expresses exactly that: two automata that agree on any set of states
containing the start state and closed under stepping (in particular, on the
reachable states) produce identical scans, for every haystack and every
byte value encountered. -/
theorem scan_consults_only_reachable_states (A B : Automaton) (valid : Nat → Prop)
    (hstart : A.start = B.start) (hv0 : valid A.start)
    (hclosed : ∀ s b, valid s → valid (A.step s b))
    (hstep : ∀ s b, valid s → A.step s b = B.step s b)
    (hmatch : ∀ s, valid s → A.isMatch s = B.isMatch s)
    (hdead : ∀ s, valid s → A.isDead s = B.isDead s)
    (H : List Nat) : matchesList A H = matchesList B H := by
  rw [matchesList, matchesList]
  exact collectFuel_congr A B valid hstart hv0 hclosed hstep hmatch hdead (H.length + 1) _

/-- C9 witness: the automaton of the literal pattern 97 and its tweaked
copy agree on the states 0, 1, 2 reachable from the start but differ
arbitrarily on the unreachable state 3; the scans coincide. -/
theorem scan_consults_only_reachable_states_witness :
    matchesList (literalDfa [97]) [97, 97] = matchesList tweakDfa [97, 97] :=
  scan_consults_only_reachable_states (literalDfa [97]) tweakDfa (fun s => s ≤ 2)
    rfl (by decide)
    (by
      intro s b hs
      show (if h : s < [97].length then
          (if [97].get ⟨s, h⟩ == b then s + 1 else [97].length + 1)
        else [97].length + 1) ≤ 2
      by_cases h1 : s < [97].length
      · rw [dif_pos h1]
        simp only [List.length_cons, List.length_nil] at h1 ⊢
        by_cases h2 : [97].get ⟨s, h1⟩ == b
        · rw [if_pos h2]
          omega
        · rw [if_neg h2]
      · rw [dif_neg h1]
        decide)
    (by
      intro s b hs
      show (literalDfa [97]).step s b = if s = 3 then 42 else (literalDfa [97]).step s b
      rw [if_neg (by omega)])
    (by
      intro s hs
      show (literalDfa [97]).isMatch s = if s = 3 then true else (literalDfa [97]).isMatch s
      rw [if_neg (by omega)])
    (by
      intro s hs
      show (literalDfa [97]).isDead s = if s = 3 then true else (literalDfa [97]).isDead s
      rw [if_neg (by omega)])
    [97, 97]
